import Mathlib

/-!
Verification development for the Othello repository.

This file gives a shallow embedding of the game logic in `src/Othello.py`
(board representation, flip-line detection, legal-move derivation, placement,
the Zobrist-hashed search state, terminal detection, the evaluation heuristic,
the alpha-beta minimax search with its transposition table, and the MTD(f)
driver) together with theorems settling the specification claims.

Conventions:
* the Python board `self.board` is a list of rows indexed `board[y][x]`;
  we model it as `Board := Fin 8 → Fin 8 → Cell` with the first index the row
  `y` and the second the column `x`;
* a position, as in the Python code, is an `(x, y)` pair: `Pos := Fin 8 × Fin 8`
  with `p.1 = x` and `p.2 = y`;
* directions (`FLIP_LINES` entries) are `(step_x, step_y)` integer pairs;
* Python's arbitrary-precision integers carrying 64-bit Zobrist values are
  modelled as `Nat` (XOR of values below 2^64 never overflows);
* Python floats produced by the heuristic's divisions are modelled as exact
  rationals (the kernel-computable fraction type `Frac` below); a
  `ZeroDivisionError` is modelled by returning `none`.
-/

namespace OthelloModel

/-- The three cell states `"W"`, `"B"`, `"E"` of `src/Othello.py`. -/
inductive Cell where
  | W : Cell
  | B : Cell
  | E : Cell
deriving DecidableEq, Repr

instance : Fintype Cell :=
  ⟨⟨{Cell.W, Cell.B, Cell.E}, by decide⟩, by intro x; cases x <;> decide⟩

/-- Model: `FLIP_RULE = {"W": "B", "B": "W", "E": "E"}` from `src/Constants.py`. -/
def flipRule : Cell → Cell
  | Cell.W => Cell.B
  | Cell.B => Cell.W
  | Cell.E => Cell.E

/-- Model: `BOARD_SIZE = 8`. The board `self.board`, indexed `board[y][x]`. -/
def Board := Fin 8 → Fin 8 → Cell

instance : DecidableEq Board := by unfold Board; infer_instance

/-- An `(x, y)` position pair as used throughout `src/Othello.py`. -/
def Pos := Fin 8 × Fin 8

instance : DecidableEq Pos := by unfold Pos; infer_instance
instance : Fintype Pos := by unfold Pos; infer_instance

/-- Model: `self.board[pos[1]][pos[0]]`: cell lookup at an `(x, y)` position. -/
def getCell (b : Board) (p : Pos) : Cell := b p.2 p.1

/-- Board update `self.board[pos[1]][pos[0]] = c`. -/
def setCell (b : Board) (p : Pos) (c : Cell) : Board :=
  fun y x => if y = p.2 ∧ x = p.1 then c else b y x

/-- Bound transfer used to index `Fin 8` from a checked integer
coordinate. -/
theorem int_toNat_lt8 {x : Int} (h0 : 0 ≤ x) (h8 : x < 8) : x.toNat < 8 := by
  omega

/-- Cell lookup at integer coordinates with the bounds check
`0 <= x < 8 and 0 <= y < 8`; `none` means out of board. -/
def cellAtI (b : Board) (x y : Int) : Option Cell :=
  if h : 0 ≤ x ∧ x < 8 ∧ 0 ≤ y ∧ y < 8 then
    some (b ⟨y.toNat, int_toNat_lt8 h.2.2.1 h.2.2.2⟩ ⟨x.toNat, int_toNat_lt8 h.1 h.2.1⟩)
  else none

/-- Model: `FLIP_LINES` from `src/Constants.py`: the 8 direction unit vectors. -/
def FLIP_LINES : List (Int × Int) :=
  [(-1, -1), (-1, 1), (1, -1), (1, 1), (1, 0), (-1, 0), (0, 1), (0, -1)]

/-- The tail of the scan loop in `Othello.line_iterator` (iterations `i ≥ 2`,
after `done_first_iter` is set): walk `x, y = step_x * i + pos[0],
step_y * i + pos[1]` while the cells hold the opposite colour; return `some i`
when the cell at step `i` holds `current_colour` (the flip line holds), `none`
when the walk leaves the board, meets an empty cell, or exhausts
`range(1, BOARD_SIZE)`.  The loop bound `i < 8` of `range(1, BOARD_SIZE)` is
carried structurally as the fuel argument `8 - i` (see `scanRest`). -/
def scanFrom (b : Board) (c : Cell) (px py dx dy : Int) : Nat → Nat → Option Nat
  | _, 0 => none
  | i, fuel + 1 =>
    match cellAtI b (dx * (i : Int) + px) (dy * (i : Int) + py) with
    | none => none
    | some cc =>
      if cc = c then some i
      else if cc = Cell.E then none
      else scanFrom b c px py dx dy (i + 1) fuel

/-- Model: `scanFrom` started at step `i` with the remaining iteration count of
`range(1, BOARD_SIZE)`: fuel `8 - i` is exactly the condition `i < 8`. -/
def scanRest (b : Board) (c : Cell) (px py dx dy : Int) (i : Nat) : Option Nat :=
  scanFrom b c px py dx dy i (8 - i)

/-- The per-direction scan of `Othello.line_iterator`: `some i` when placing
`c` at `p` flips along direction `d` up to the own-colour cell at step `i`.
The first iteration (`i = 1`) requires the adjacent cell to hold
`FLIP_RULE[current_colour]`; later iterations are `scanRest`. -/
def flipLineLen (b : Board) (p : Pos) (c : Cell) (d : Int × Int) : Option Nat :=
  match cellAtI b (d.1 * 1 + (p.1.val : Int)) (d.2 * 1 + (p.2.val : Int)) with
  | none => none
  | some cc => if cc = flipRule c then scanRest b c p.1.val p.2.val d.1 d.2 2 else none

/-- The cells `(step_x * z + pos[0], step_y * z + pos[1])` for `z in
range(1, i)` yielded by `Othello.line_iterator` once a flip line of length `i`
holds. -/
def lineFlipCells (p : Pos) (d : Int × Int) (i : Nat) : List (Int × Int) :=
  (List.range (i - 1)).map
    (fun z => (d.1 * ((z : Int) + 1) + p.1.val, d.2 * ((z : Int) + 1) + p.2.val))

/-- All cells yielded by `Othello.line_iterator(pos, current_colour,
check_lines)` on a fixed board (the read-only use in `AI.heuristic_utility`). -/
def line_iterator (b : Board) (p : Pos) (c : Cell) (dirs : List (Int × Int)) :
    List (Int × Int) :=
  dirs.foldr
    (fun d acc =>
      (match flipLineLen b p c d with
        | some i => lineFlipCells p d i
        | none => []) ++ acc) []

/-- The move entry `Othello.board_change` builds for colour `c` at an empty
cell `p`: the directions `d ∈ FLIP_LINES` whose adjacent cell holds the
opposite colour (the `adjacent` generator paired with the colour test) and
whose `check_flip_line((x, y), c, d)` succeeds.  A non-empty cell gets no
entry.  Directions are accumulated in `FLIP_LINES` order, as `adjacent`
iterates them.  `possible_moves` has exactly the keys `"W"` and `"B"`, so the
colour argument `Cell.E` (which would be a `KeyError` in Python) is mapped to
the empty entry. -/
def movesFor (b : Board) (c : Cell) (p : Pos) : List (Int × Int) :=
  match c with
  | Cell.E => []
  | _ =>
    if getCell b p = Cell.E then
      FLIP_LINES.filter
        (fun d =>
          (cellAtI b ((p.1.val : Int) + d.1) ((p.2.val : Int) + d.2)
              == some (flipRule c))
          && (flipLineLen b p c d).isSome)
    else []

/-- Model: `Othello.count_pieces` restricted to one colour: the loop
`for x: for y: count[self.board[x][y]] += 1` visits every cell once. -/
def countPieces (b : Board) (c : Cell) : Nat :=
  (Finset.univ.filter (fun p : Fin 8 × Fin 8 => b p.1 p.2 = c)).card

/-- The insertion order of `possible_moves` keys: `Othello.board_change`
scans `for x in range(BOARD_SIZE): for y in range(BOARD_SIZE)`, so keys are
ordered x-major. -/
def posOrderXY : List Pos :=
  (List.finRange 8).flatMap (fun x => (List.finRange 8).map (fun y => ((x, y) : Pos)))

/-- The key list of `possible_moves[c]` for a per-colour move function
(`p` is a key exactly when its direction list is non-empty). -/
def keysOf (pm : Pos → List (Int × Int)) : List Pos :=
  posOrderXY.filter (fun p => !(pm p).isEmpty)

/-- Model: `len(possible_moves[c])`: the number of keys. -/
def numKeys (pm : Pos → List (Int × Int)) : Nat := (keysOf pm).length

/-- Model: `XOR_INDICES = {"W": 1, "B": 2, "E": 0}` from `src/Constants.py`. -/
def XOR_INDICES : Cell → Fin 3
  | Cell.W => 1
  | Cell.B => 2
  | Cell.E => 0

/-- The Zobrist table `self.table`: 3 random 64-bit values per board cell,
indexed `table[pos[1] * BOARD_SIZE + pos[0]][XOR_INDICES[colour]]`. -/
def Table := Fin 64 → Fin 3 → Nat

theorem idx64_lt (p : Pos) : p.2.val * 8 + p.1.val < 64 := by omega

/-- The flat cell index `pos[1] * BOARD_SIZE + pos[0]`. -/
def idx64 (p : Pos) : Fin 64 := ⟨p.2.val * 8 + p.1.val, idx64_lt p⟩

/-- The state of a `HashedLocalVersus` object: the wrapped `HashedBoard`
(`board` and `hash_num`) and the two `possible_moves` dictionaries, modelled
as per-colour direction functions (`[]` meaning "no key").  The shared
Zobrist `table` is passed separately to the operations. -/
structure HLV where
  board : Board
  hash_num : Nat
  pmW : Pos → List (Int × Int)
  pmB : Pos → List (Int × Int)

/-- The `possible_moves[colour]` lookup on an `HLV` state. -/
def HLV.pm (s : HLV) : Cell → Pos → List (Int × Int)
  | Cell.W => s.pmW
  | Cell.B => s.pmB
  | Cell.E => fun _ => []

/-- The state invariant of the live game loop: the stored `possible_moves`
dictionaries are what `Othello.board_change` computes from the current board. -/
def HLV.consistent (s : HLV) : Prop :=
  s.pmW = (fun p => movesFor s.board Cell.W p) ∧
  s.pmB = (fun p => movesFor s.board Cell.B p)

/-- Model: `HashedLocalVersus.flip` acting on a `(board, hash_num)` pair: flip the
cell at integer coordinates `(x, y)` via `FLIP_RULE` and XOR out the old
cell-colour Zobrist value and XOR in the new one.  (`flip` is only ever
called on in-board coordinates yielded by `line_iterator`; out-of-range
coordinates are mapped to a no-op to keep the model total.) -/
def hflip (table : Table) (bh : Board × Nat) (x y : Int) : Board × Nat :=
  if h : 0 ≤ x ∧ x < 8 ∧ 0 ≤ y ∧ y < 8 then
    let p : Pos := (⟨x.toNat, int_toNat_lt8 h.1 h.2.1⟩, ⟨y.toNat, int_toNat_lt8 h.2.2.1 h.2.2.2⟩)
    let c := getCell bh.1 p
    (setCell bh.1 p (flipRule c),
      bh.2 ^^^ table (idx64 p) (XOR_INDICES c) ^^^ table (idx64 p) (XOR_INDICES (flipRule c)))
  else bh

/-- One direction of `Othello.flip_line`: `line_iterator` scans the direction
on the current board, then the yielded cells are flipped in order (flips on
distinct directions touch disjoint cells, and the scan of a direction happens
before its own flips, so per-direction sequencing is the loop's behaviour). -/
def flipAlong (table : Table) (bh : Board × Nat) (p : Pos) (c : Cell)
    (d : Int × Int) : Board × Nat :=
  match flipLineLen bh.1 p c d with
  | some i => (lineFlipCells p d i).foldl (fun acc q => hflip table acc q.1 q.2) bh
  | none => bh

/-- Model: `HashedLocalVersus.place(pos, current_colour)`: write the placed colour,
XOR the hash from the empty-cell value to the placed-colour value, flip along
every direction recorded in `possible_moves[current_colour][pos]`, then
`board_change` recomputes both `possible_moves` dictionaries from the new
board. -/
def hplace (table : Table) (s : HLV) (p : Pos) (c : Cell) : HLV :=
  let b1 := setCell s.board p c
  let h1 := s.hash_num ^^^ table (idx64 p) (XOR_INDICES Cell.E)
      ^^^ table (idx64 p) (XOR_INDICES c)
  let bh := (s.pm c p).foldl (fun acc d => flipAlong table acc p c d) (b1, h1)
  { board := bh.1
    hash_num := bh.2
    pmW := fun q => movesFor bh.1 Cell.W q
    pmB := fun q => movesFor bh.1 Cell.B q }

/-- All 64 positions in the `for y: for x:` scan order of
`AI.get_hash_version`. -/
def allPosYX : List Pos :=
  (List.finRange 8).flatMap (fun y => (List.finRange 8).map (fun x => ((x, y) : Pos)))

/-- The from-scratch Zobrist hash of `AI.get_hash_version`:
`for y: for x: zobrist_hash ^= table[y * BOARD_SIZE + x][XOR_INDICES[board[y][x]]]`. -/
def scratchHash (table : Table) (b : Board) : Nat :=
  allPosYX.foldl
    (fun h p => h ^^^ table (idx64 p) (XOR_INDICES (getCell b p))) 0

/-- Model: `AI.get_hash_version`: seed a search root from the live board, the live
`possible_moves` dictionaries and the shared table, with the hash computed
from scratch. -/
def get_hash_version (table : Table) (b : Board)
    (pmW pmB : Pos → List (Int × Int)) : HLV :=
  { board := b, hash_num := scratchHash table b, pmW := pmW, pmB := pmB }

/-- One suspension round of `Othello.end_game_iterator`, from the loop top at
internal colour `c` to the next `yield` (or `break`): if `colour` has a key in
`possible_moves`, yield it (and the internal colour after resuming is
`FLIP_RULE[colour]`); otherwise if the opponent has a key, switch to the
opponent and yield it (the internal colour after resuming stays that same
opponent — the `elif` branch flips before the `yield`, not after); otherwise
stop.  Returns `some (yielded, colourAfterResume)` or `none` for `break`. -/
def endGameStep (s : HLV) (c : Cell) : Option (Cell × Cell) :=
  if numKeys (s.pm c) ≠ 0 then some (c, flipRule c)
  else if numKeys (s.pm (flipRule c)) ≠ 0 then some (flipRule c, flipRule c)
  else none

/-- Model: `AI.check_if_terminal`: both `possible_moves` dictionaries empty, or one
empty and the smaller piece count (the second entry of the descending count
list with `"E"` filtered out) equal to zero. -/
def check_if_terminal (s : HLV) : Bool :=
  if (∀ p, s.pmB p = []) ∧ (∀ p, s.pmW p = []) then true
  else if (∀ p, s.pmB p = []) ∨ (∀ p, s.pmW p = []) then
    decide (min (countPieces s.board Cell.W) (countPieces s.board Cell.B) = 0)
  else false

/-- The two-element list `count` built by `AI.terminal_utility` and
`AI.check_if_terminal`: the `(value, key)` pairs sorted by count descending
with `"E"` filtered out.  The Python sort is stable over the dict order
`W, B, E`, so White precedes Black unless Black's count is strictly
larger. -/
def sortedCounts (s : HLV) : (Int × Cell) × (Int × Cell) :=
  if (countPieces s.board Cell.B : Int) > (countPieces s.board Cell.W : Int) then
    (((countPieces s.board Cell.B : Int), Cell.B),
     ((countPieces s.board Cell.W : Int), Cell.W))
  else
    (((countPieces s.board Cell.W : Int), Cell.W),
     ((countPieces s.board Cell.B : Int), Cell.B))

/-- Model: `AI.terminal_utility`: 0 on equal counts (the "Try" branch fires before
the colour is inspected), otherwise `85 + margin` when `count[0]` is White's
and `-85 - margin` when it is Black's. -/
def terminal_utility (s : HLV) : Int :=
  if (sortedCounts s).1.1 = (sortedCounts s).2.1 then 0
  else if (sortedCounts s).1.2 = Cell.W then
    85 + (sortedCounts s).1.1 - (sortedCounts s).2.1
  else -85 - (sortedCounts s).1.1 + (sortedCounts s).2.1

/-- Model: `SAFE_LINES` from `src/Constants.py`, in `(y, x, line_diff)` notation.
(The sixth entry repeats `(BOARD_SIZE - 1, 0, (0, 1))` verbatim, as in the
source.) -/
def SAFE_LINES : List (Int × Int × (Int × Int)) :=
  [(0, 0, (0, 1)), (0, 0, (1, 0)),
   (0, 7, (0, -1)), (0, 7, (1, 0)),
   (7, 0, (0, 1)), (7, 0, (0, 1)),
   (7, 7, (0, -1)), (7, 7, (-1, 0))]

/-- The loop guard of `AI.dumb_line_iterator`:
`0 >= x > BOARD_SIZE and 0 >= y > BOARD_SIZE`, i.e. the chained comparison
`0 >= x and x > 8` conjoined with the same for `y`. -/
def dumbLineGuard (y x : Int) : Prop := (0 ≥ x ∧ x > 8) ∧ (0 ≥ y ∧ y > 8)

instance (y x : Int) : Decidable (dumbLineGuard y x) := by
  unfold dumbLineGuard; infer_instance

/-- No integers satisfy the guard (`x ≤ 0` and `x > 8` are contradictory). -/
theorem dumbLineGuard_false (y x : Int) : ¬ dumbLineGuard y x := by
  intro h; unfold dumbLineGuard at h; omega

/-- Model: `AI.dumb_line_iterator(y, x, line_diff)`: its `while` guard
`0 >= x > BOARD_SIZE and 0 >= y > BOARD_SIZE` is unsatisfiable
(`dumbLineGuard_false`), so the generator yields nothing for every input. -/
def dumb_line_iterator (y x : Int) (_line_diff : Int × Int) : List (Int × Int) :=
  if dumbLineGuard y x then [] else []

/-- The inner walk of the stability loop in `AI.heuristic_utility`: consume
the cells yielded by `dumb_line_iterator`, appending while the test holds and
breaking at the first failure.  Note the test re-reads the corner cell
`othello.board[y][x]` (not the walked cell `(yy, xx)`), as in the source. -/
def walkStable (b : Board) (y x : Int) (c : Cell) :
    List (Int × Int) → List (Int × Int) → List (Int × Int)
  | acc, [] => acc
  | acc, q :: rest =>
    if cellAtI b x y = some c ∧ q ∉ acc then walkStable b y x c (acc ++ [q]) rest
    else acc

/-- The `white_stable` / `black_stable` lists of `AI.heuristic_utility`: for
each `SAFE_LINES` entry, an occupied corner is appended to its colour's list
(so each occupied corner is appended once per entry mentioning it) and the
edge walk `dumb_line_iterator` is consumed (it yields nothing). -/
def stableLists (b : Board) : List (Int × Int) × List (Int × Int) :=
  SAFE_LINES.foldl
    (fun acc e =>
      match cellAtI b e.2.1 e.1 with
      | some Cell.E => acc
      | some Cell.W =>
        (walkStable b e.1 e.2.1 Cell.W (acc.1 ++ [(e.1, e.2.1)])
          (dumb_line_iterator e.1 e.2.1 e.2.2), acc.2)
      | some Cell.B =>
        (acc.1, walkStable b e.1 e.2.1 Cell.B (acc.2 ++ [(e.1, e.2.1)])
          (dumb_line_iterator e.1 e.2.1 e.2.2))
      | none => acc) ([], [])

/-- The `white_unstable` / `black_unstable` sets of `AI.heuristic_utility`:
the cells yielded by `line_iterator` over every key of
`possible_moves[mover]` — the discs the mover could flip (a Python `set`, so
each position counts once). -/
def unstable (s : HLV) (mover : Cell) : Finset (Int × Int) :=
  ((keysOf (s.pm mover)).flatMap
    (fun p => line_iterator s.board p mover (s.pm mover p))).toFinset

/-! ## Exact rational values

The heuristic divides integer quantities, producing Python floats whose
values in this program are exact small rationals.  Mathlib's `ℚ` cannot be
evaluated by the kernel (its operations normalize through `Nat.gcd`, a
well-founded definition), so the model uses a self-contained normalized
fraction type whose arithmetic the kernel can compute. -/

/-- Euclid's algorithm with explicit fuel.  Each step replaces `(a, b)` by
`(b % a, a)` and `b % a < a`, so fuel `a + 1` always suffices. -/
def natGcdF : Nat → Nat → Nat → Nat
  | 0, _, b => b
  | fuel + 1, a, b => if a = 0 then b else natGcdF fuel (b % a) a

/-- Kernel-computable gcd. -/
def natGcd (a b : Nat) : Nat := natGcdF (a + 1) a b

/-- An exact rational in lowest terms with positive denominator (the
operations below only build normalized values, so structural equality is
value equality). -/
structure Frac where
  num : Int
  den : Nat
deriving DecidableEq

/-- Build a normalized fraction from an integer numerator and denominator.
(A zero denominator can only arise from a division by zero, which the
callers guard or turn into `none`.) -/
def Frac.mk' (n d : Int) : Frac :=
  let n1 : Int := if d < 0 then -n else n
  let d1 : Nat := d.natAbs
  let g := natGcd n1.natAbs d1
  if g = 0 then ⟨0, 1⟩ else ⟨n1 / (g : Int), d1 / g⟩

instance (n : Nat) : OfNat Frac n := ⟨⟨n, 1⟩⟩
instance : NatCast Frac := ⟨fun n => ⟨n, 1⟩⟩
instance : IntCast Frac := ⟨fun n => ⟨n, 1⟩⟩
instance : Neg Frac := ⟨fun a => ⟨-a.num, a.den⟩⟩
instance : Add Frac := ⟨fun a b => Frac.mk' (a.num * b.den + b.num * a.den) (a.den * b.den)⟩
instance : Sub Frac := ⟨fun a b => Frac.mk' (a.num * b.den - b.num * a.den) (a.den * b.den)⟩
instance : Mul Frac := ⟨fun a b => Frac.mk' (a.num * b.num) (a.den * b.den)⟩
instance : Div Frac := ⟨fun a b => Frac.mk' (a.num * b.den) (a.den * b.num)⟩
instance : LE Frac := ⟨fun a b => a.num * b.den ≤ b.num * a.den⟩
instance : LT Frac := ⟨fun a b => a.num * b.den < b.num * a.den⟩

instance : DecidableRel (fun a b : Frac => a ≤ b) := fun _ _ => Int.decLe _ _
instance : DecidableRel (fun a b : Frac => a < b) := fun _ _ => Int.decLt _ _

/-- Model: `abs` on fractions. -/
def Frac.fabs (a : Frac) : Frac := ⟨(a.num.natAbs : Int), a.den⟩

/-- Model: `piece_to_heuristic = {"W": 1, "B": -1, "E": 0}`. -/
def piece_to_heuristic : Cell → Frac
  | Cell.W => 1
  | Cell.B => -1
  | Cell.E => 0

/-- The `heuristic_piece_count` term `(count["W"] - count["B"]) / (count["W"]
+ count["B"])` (well-defined only under the non-zero denominator guard of
`heuristic_utility`). -/
def piece_count_term (s : HLV) : Frac :=
  ((countPieces s.board Cell.W : Frac) - (countPieces s.board Cell.B : Frac)) /
    ((countPieces s.board Cell.W : Frac) + (countPieces s.board Cell.B : Frac))

/-- The `heuristic_mobility` term `(white_move_count - black_move_count) /
(white_move_count + black_move_count)` (well-defined only under the non-zero
denominator guard of `heuristic_utility`). -/
def mobility_term (s : HLV) : Frac :=
  ((numKeys s.pmW : Frac) - (numKeys s.pmB : Frac)) /
    ((numKeys s.pmW : Frac) + (numKeys s.pmB : Frac))

/-- The `heuristic_corner_capture` term, guarded by its
"Division by zero error" check. -/
def corner_capture_term (s : HLV) : Frac :=
  let total_corners_captured :=
    Frac.fabs (piece_to_heuristic (s.board 0 0)) + Frac.fabs (piece_to_heuristic (s.board 7 0)) +
    Frac.fabs (piece_to_heuristic (s.board 0 7)) + Frac.fabs (piece_to_heuristic (s.board 7 7))
  if total_corners_captured ≠ 0 then
    (piece_to_heuristic (s.board 0 0) + piece_to_heuristic (s.board 7 0) +
     piece_to_heuristic (s.board 0 7) + piece_to_heuristic (s.board 7 7)) /
      total_corners_captured
  else 0

/-- Model: `white_stability = len(white_stable) - len(white_unstable)`. -/
def white_stability (s : HLV) : ℤ :=
  ((stableLists s.board).1.length : ℤ) - ((unstable s Cell.B).card : ℤ)

/-- Model: `black_stability = len(black_stable) - len(black_unstable)`. -/
def black_stability (s : HLV) : ℤ :=
  ((stableLists s.board).2.length : ℤ) - ((unstable s Cell.W).card : ℤ)

/-- The `heuristic_stability` term, guarded by its "Division by zero error"
check. -/
def stability_term (s : HLV) : Frac :=
  if white_stability s + black_stability s ≠ 0 then
    ((white_stability s : Frac) - (black_stability s : Frac)) /
      ((white_stability s : Frac) + (black_stability s : Frac))
  else 0

/-- Model: `AI.heuristic_utility`.  Python float arithmetic is modelled exactly over
`ℚ`; the two unguarded divisions (the disc-count term computed first, and the
mobility term — unlike the corner and stability terms they have no
"Division by zero error" check) raise `ZeroDivisionError` when their
denominator is zero, modelled as `none`. -/
def heuristic_utility (s : HLV) : Option Frac :=
  if (countPieces s.board Cell.W : Frac) + (countPieces s.board Cell.B : Frac) = 0 then none
  else if (numKeys s.pmW : Frac) + (numKeys s.pmB : Frac) = 0 then none
  else
    some (30 * corner_capture_term s + mobility_term s * 5 +
      stability_term s * 25 + piece_count_term s * 25)

/-- Search values: Python's `float('-inf')`, finite scores (exact rationals),
and `float('+inf')`. -/
inductive Val where
  | ninf : Val
  | fin : Frac → Val
  | pinf : Val
deriving DecidableEq

/-- Model: `a <= b` on search values. -/
def vle : Val → Val → Bool
  | Val.ninf, _ => true
  | _, Val.pinf => true
  | Val.fin a, Val.fin b => a ≤ b
  | Val.pinf, _ => false
  | Val.fin _, Val.ninf => false

/-- Model: `a < b` on search values. -/
def vlt : Val → Val → Bool
  | Val.ninf, Val.ninf => false
  | Val.ninf, _ => true
  | Val.fin a, Val.fin b => a < b
  | Val.fin _, Val.pinf => true
  | Val.fin _, Val.ninf => false
  | Val.pinf, _ => false

/-- Model: `max(a, b)`. -/
def vmax (a b : Val) : Val := if vlt a b then b else a

/-- Model: `min(a, b)`. -/
def vmin (a b : Val) : Val := if vlt b a then b else a

/-- Model: `v + 1` (infinities absorb, as in float arithmetic). -/
def vadd1 : Val → Val
  | Val.fin q => Val.fin (q + 1)
  | v => v

/-- Model: `v - 1` (infinities absorb). -/
def vsub1 : Val → Val
  | Val.fin q => Val.fin (q - 1)
  | v => v

/-- A transposition-table record `(score, type_of_info, lookahead, action)` as
stored by `AI.minimax` (`type_of_info`: 0 lower bound, 1 exact, 2 upper
bound). -/
structure TTEntry where
  value : Val
  type_of_info : Nat
  depth : Nat
  move : Pos
deriving DecidableEq

/-- The `searched_moves` dictionary.  Python keys it by `HashedBoard`, whose
`__hash__` is the Zobrist `hash_num` and whose `__eq__` is board equality;
within a search every state's `hash_num` is determined by its board (the
incremental-hash invariant), so lookup by board-content equality models the
dict. -/
abbrev TT := List (Board × TTEntry)

/-- Model: `searched_moves.get(board.board_state)`. -/
def ttGet (tt : TT) (b : Board) : Option TTEntry :=
  (tt.find? (fun e => e.1 == b)).map Prod.snd

/-- Model: `searched_moves[board.board_state] = entry`: replace the entry of an
existing key, else append the new key (dicts keep insertion order). -/
def ttSet (tt : TT) (b : Board) (e : TTEntry) : TT :=
  if tt.any (fun x => x.1 == b) then
    tt.map (fun x => if x.1 == b then (b, e) else x)
  else tt ++ [(b, e)]

/-- Outcome of the transposition-table probe at the top of `AI.minimax`:
either an early `return value, move`, or continue with (possibly tightened)
`alpha`/`beta` and the `check_move_first` hint. -/
inductive ProbeResult where
  | ret : Val → Pos → ProbeResult
  | go : Val → Val → Option Pos → ProbeResult
deriving DecidableEq

/-- The probe at the top of `AI.minimax` (lines 552–569): an entry is
consulted only when `search[2] >= lookahead`; an exact entry returns at once,
a lower bound raises `alpha`, an upper bound lowers `beta`, and a closed
window returns; otherwise the entry's move becomes `check_move_first`.  An
absent entry — or one whose stored depth is below `lookahead` — leaves
`alpha`, `beta` untouched and sets `check_move_first = None`. -/
def ttProbe (tt : TT) (b : Board) (alpha beta : Val) (lookahead : Nat) :
    ProbeResult :=
  match ttGet tt b with
  | some e =>
    if e.depth ≥ lookahead then
      if e.type_of_info = 1 then ProbeResult.ret e.value e.move
      else
        let alpha1 := if e.type_of_info = 0 then vmax alpha e.value else alpha
        let beta1 := if e.type_of_info = 2 then vmin beta e.value else beta
        if vle beta1 alpha1 then ProbeResult.ret e.value e.move
        else ProbeResult.go alpha1 beta1 (some e.move)
    else ProbeResult.go alpha beta none
  | none => ProbeResult.go alpha beta none

/-- Model: `sorted(keys, key=lambda x: x != check_move_first)`: a stable sort on the
boolean key, i.e. the keys equal to the hint first (in order), then the rest
(in order).  With hint `None` no tuple equals `None`, so the order is
unchanged. -/
def orderMoves (keys : List Pos) : Option Pos → List Pos
  | none => keys
  | some m => keys.filter (fun p => p == m) ++ keys.filter (fun p => p != m)

/-- The three store statements at the end of `AI.minimax` (lines 608–613)
plus the final return.  When the move loop never ran, `score` is still the
initial infinity, the first matching store statement reads the unassigned
local `action` and Python raises `UnboundLocalError`: modelled as `none`. -/
def storeResult (s : HLV) (alpha beta : Val) (lookahead : Nat) :
    Val × Option Pos × TT → Option (Val × Option Pos × TT)
  | (_, none, _) => none
  | (score, some act, tt) =>
    let tt1 := if vle score alpha then ttSet tt s.board ⟨score, 2, lookahead, act⟩ else tt
    let tt2 := if vlt alpha score && vlt score beta then
        ttSet tt1 s.board ⟨score, 1, lookahead, act⟩ else tt1
    let tt3 := if vle beta score then ttSet tt2 s.board ⟨score, 0, lookahead, act⟩ else tt2
    some (score, some act, tt3)

/-- The maximising move loop of `AI.minimax`: deep-copy, place `"W"`, recurse
with window `(a, beta)` and `maximising = (len(possible_moves["B"]) == 0)`
(the forced-pass rule), update `action` on strict improvement, then `score`,
then `a`, and break when `a >= beta`.  The recursive `AI.minimax` call one
ply shallower is passed in as `recur` so that the search recursion is
structural in `lookahead` (and hence kernel-computable). -/
def loopMax (table : Table)
    (recur : HLV → Val → Val → Bool → TT → Option (Val × Option Pos × TT))
    (s : HLV) (beta : Val) : List Pos → Val → Option Pos → Val → TT →
      Option (Val × Option Pos × TT)
  | [], score, action, _, tt => some (score, action, tt)
  | m :: rest, score, action, a, tt =>
    let new_board := hplace table s m Cell.W
    match recur new_board a beta (numKeys new_board.pmB == 0) tt with
    | none => none
    | some (evaluation, _, tt1) =>
      let action1 := if vlt score evaluation then some m else action
      let score1 := vmax score evaluation
      let a1 := vmax a score1
      if vle beta a1 then some (score1, action1, tt1)
      else loopMax table recur s beta rest score1 action1 a1 tt1

/-- The minimising move loop of `AI.minimax`: deep-copy, place `"B"`, recurse
with window `(alpha, b)` and `maximising = (len(possible_moves["W"]) != 0)`,
update `action` on strict improvement, then `score`, then `b`, and break when
`b <= alpha`. -/
def loopMin (table : Table)
    (recur : HLV → Val → Val → Bool → TT → Option (Val × Option Pos × TT))
    (s : HLV) (alpha : Val) : List Pos → Val → Option Pos → Val → TT →
      Option (Val × Option Pos × TT)
  | [], score, action, _, tt => some (score, action, tt)
  | m :: rest, score, action, b, tt =>
    let new_board := hplace table s m Cell.B
    match recur new_board alpha b (numKeys new_board.pmW != 0) tt with
    | none => none
    | some (evaluation, _, tt1) =>
      let action1 := if vlt evaluation score then some m else action
      let score1 := vmin score evaluation
      let b1 := vmin b score1
      if vle b1 alpha then some (score1, action1, tt1)
      else loopMin table recur s alpha rest score1 action1 b1 tt1

/-- Model: `AI.minimax`.  The `initial` flag of the source only selects whether the
bare score or the `(score, action)` pair is returned; the model always
returns the triple `(score, action-if-assigned, searched_moves)` and lets the
caller project.  The terminal and depth-cutoff branches return a bare number
in Python (no action); `lookahead <= 0` is `lookahead = 0` on `Nat`.  A
`none` result models an uncaught Python exception (the unbound `action` of
`storeResult`, or a `ZeroDivisionError` from `heuristic_utility`).  The
recursion is structural in `lookahead`; the move loops receive the one-ply
shallower search as a function. -/
def minimax (table : Table) : Nat → HLV → Val → Val → Bool → TT →
    Option (Val × Option Pos × TT)
  | lookahead, s, alpha, beta, maximising, tt =>
    match ttProbe tt s.board alpha beta lookahead with
    | ProbeResult.ret v m => some (v, some m, tt)
    | ProbeResult.go alpha1 beta1 cmf =>
      if check_if_terminal s then
        some (Val.fin ((terminal_utility s : ℤ) : Frac), none, tt)
      else
        match lookahead with
        | 0 => (heuristic_utility s).map (fun q => (Val.fin q, none, tt))
        | Nat.succ L =>
          if maximising then
            match loopMax table (fun s2 a b mx tt2 => minimax table L s2 a b mx tt2)
                s beta1 (orderMoves (keysOf s.pmW) cmf) Val.ninf none alpha1 tt with
            | none => none
            | some r => storeResult s alpha1 beta1 (L + 1) r
          else
            match loopMin table (fun s2 a b mx tt2 => minimax table L s2 a b mx tt2)
                s alpha1 (orderMoves (keysOf s.pmB) cmf) Val.pinf none beta1 tt with
            | none => none
            | some r => storeResult s alpha1 beta1 (L + 1) r

/-- The `while lower_bound < upper_bound` loop of `AI.MTDF`, with an explicit
fuel bound (the source gives no termination argument; exhausted fuel is
`none`).  Each round runs a null-window `minimax` at `(beta - 1, beta)`; a
result below `beta` lowers the upper bound, otherwise it raises the lower
bound.  The source unpacks `guess, move = AI.minimax(...)`, which raises
`TypeError` when the call returned a bare number (terminal or depth-0 root):
modelled as `none`. -/
def MTDFgo (table : Table) (s : HLV) (lookahead : Nat) :
    Nat → Val → Option Pos → Val → Val → TT → Option (Val × Option Pos × TT)
  | 0, _, _, _, _, _ => none
  | fuel + 1, guess, move, upper_bound, lower_bound, tt =>
    if vlt lower_bound upper_bound then
      let beta := if guess = lower_bound then vadd1 guess else guess
      match minimax table lookahead s (vsub1 beta) beta true tt with
      | some (g, some m, tt1) =>
        if vlt g beta then
          MTDFgo table s lookahead fuel g (some m) g lower_bound tt1
        else
          MTDFgo table s lookahead fuel g (some m) upper_bound g tt1
      | some (_, none, _) => none
      | none => none
    else some (guess, move, tt)

/-- Model: `AI.MTDF(board, first_guess, lookahead, search_dict)`. -/
def MTDF (table : Table) (s : HLV) (first_guess : Val) (lookahead : Nat)
    (tt : TT) (fuel : Nat) : Option (Val × Option Pos × TT) :=
  MTDFgo table s lookahead fuel first_guess none Val.pinf Val.ninf tt

/-! ## Concrete boards and states used by witnesses and counterexamples -/

/-- Build a board from row lists (row `y` first, as the Python nested list);
missing entries are empty. -/
def boardOfRows (rows : List (List Cell)) : Board := fun y x =>
  (((rows.get? y.val).getD []).get? x.val).getD Cell.E

/-- The initial board from `START_POS`: the four centre discs. -/
def startBoard : Board := boardOfRows
  [[], [], [],
   [Cell.E, Cell.E, Cell.E, Cell.W, Cell.B],
   [Cell.E, Cell.E, Cell.E, Cell.B, Cell.W]]

/-- A concrete Zobrist table for witnesses (any table works for the
invariant theorems; the source draws `getrandbits(64)` values). -/
def table0 : Table := fun i j => (i.val * 3 + j.val + 1) * 2654435761 % (2 ^ 32)

/-- A search-root state over a board, with `possible_moves` as
`board_change` computes them and the hash from scratch, as
`AI.get_hash_version` builds it. -/
def mkState (table : Table) (b : Board) : HLV :=
  get_hash_version table b (fun p => movesFor b Cell.W p) (fun p => movesFor b Cell.B p)

theorem mkState_consistent (table : Table) (b : Board) :
    (mkState table b).consistent := ⟨rfl, rfl⟩

/-! ## Basic inversion lemmas about the line scan -/

theorem scanFrom_some_cell (b : Board) (c : Cell) (px py dx dy : Int) :
    ∀ fuel i j, scanFrom b c px py dx dy i fuel = some j →
      cellAtI b (dx * (j : Int) + px) (dy * (j : Int) + py) = some c := by
  intro fuel
  induction fuel with
  | zero => intro i j h; simp [scanFrom] at h
  | succ n ih =>
    intro i j h
    unfold scanFrom at h
    split at h
    · exact absurd h (by simp)
    · rename_i cc hc
      split_ifs at h with h1 h2
      · obtain rfl : i = j := Option.some.inj h
        rw [h1] at hc; exact hc
      · exact ih (i + 1) j h

theorem cellAtI_some_exists (b : Board) (x y : Int) (cc : Cell)
    (h : cellAtI b x y = some cc) : ∃ p : Pos, getCell b p = cc := by
  unfold cellAtI at h
  split at h
  · rename_i hb
    refine ⟨(⟨x.toNat, by omega⟩, ⟨y.toNat, by omega⟩), ?_⟩
    simpa [getCell] using (Option.some.inj h)
  · exact absurd h (by simp)

/-- A colour with a legal move owns at least one disc: the flip line must
terminate on a cell of that colour. -/
theorem movesFor_ne_nil_exists (b : Board) (c : Cell) (p : Pos)
    (h : movesFor b c p ≠ []) : ∃ q : Pos, getCell b q = c := by
  have hmem : ∃ d ∈ FLIP_LINES,
      ((cellAtI b ((p.1.val : Int) + d.1) ((p.2.val : Int) + d.2)
          == some (flipRule c)) && (flipLineLen b p c d).isSome) = true := by
    cases c with
    | E => simp [movesFor] at h
    | W =>
      by_cases hE : getCell b p = Cell.E
      · have h2 : movesFor b Cell.W p = FLIP_LINES.filter
            (fun d => (cellAtI b ((p.1.val : Int) + d.1) ((p.2.val : Int) + d.2)
              == some (flipRule Cell.W)) && (flipLineLen b p Cell.W d).isSome) := by
          simp [movesFor, hE]
        rw [h2] at h
        rcases List.exists_mem_of_ne_nil _ h with ⟨d, hd⟩
        exact ⟨d, (List.mem_filter.mp hd).1, (List.mem_filter.mp hd).2⟩
      · exact absurd (by simp [movesFor, hE]) h
    | B =>
      by_cases hE : getCell b p = Cell.E
      · have h2 : movesFor b Cell.B p = FLIP_LINES.filter
            (fun d => (cellAtI b ((p.1.val : Int) + d.1) ((p.2.val : Int) + d.2)
              == some (flipRule Cell.B)) && (flipLineLen b p Cell.B d).isSome) := by
          simp [movesFor, hE]
        rw [h2] at h
        rcases List.exists_mem_of_ne_nil _ h with ⟨d, hd⟩
        exact ⟨d, (List.mem_filter.mp hd).1, (List.mem_filter.mp hd).2⟩
      · exact absurd (by simp [movesFor, hE]) h
  rcases hmem with ⟨d, _, hd⟩
  have hsome : (flipLineLen b p c d).isSome = true :=
    ((Bool.and_eq_true _ _).mp hd).2
  rcases Option.isSome_iff_exists.mp hsome with ⟨j, hj⟩
  unfold flipLineLen at hj
  rcases hc1 : cellAtI b (d.1 * 1 + (p.1.val : Int)) (d.2 * 1 + (p.2.val : Int)) with _ | cc
  · rw [hc1] at hj; simp at hj
  · rw [hc1] at hj
    by_cases hcc : cc = flipRule c
    · simp [hcc] at hj
      have := scanFrom_some_cell b c p.1.val p.2.val d.1 d.2 _ _ _ hj
      exact cellAtI_some_exists _ _ _ _ this
    · simp [hcc] at hj

/-- A colour with zero discs has no legal moves. -/
theorem countPieces_zero_no_moves (b : Board) (c : Cell)
    (h : countPieces b c = 0) (p : Pos) : movesFor b c p = [] := by
  by_contra hne
  rcases movesFor_ne_nil_exists b c p hne with ⟨q, hq⟩
  have : (q.2, q.1) ∈ Finset.univ.filter (fun r : Fin 8 × Fin 8 => b r.1 r.2 = c) := by
    simp [getCell] at hq; simp [hq]
  have hcard := Finset.card_eq_zero.mp h
  rw [hcard] at this
  exact absurd this (Finset.not_mem_empty _)

/-- C3. `AI.check_if_terminal` is true exactly when both colours' legal-move
sets are empty or one side's piece count is zero (the spec's terminal
predicate), for any state satisfying the game-loop consistency invariant. -/
theorem C3_terminal_iff (s : HLV) (hc : s.consistent) :
    check_if_terminal s = true ↔
      ((∀ p, movesFor s.board Cell.B p = []) ∧ (∀ p, movesFor s.board Cell.W p = [])) ∨
      countPieces s.board Cell.W = 0 ∨ countPieces s.board Cell.B = 0 := by
  obtain ⟨hW, hB⟩ := hc
  unfold check_if_terminal
  rw [hW, hB]
  constructor
  · intro h
    split_ifs at h with h1 h2
    · exact Or.inl ⟨h1.1, h1.2⟩
    · have := of_decide_eq_true h
      rcases Nat.min_eq_zero_iff.mp this with h0 | h0
      · exact Or.inr (Or.inl h0)
      · exact Or.inr (Or.inr h0)
  · intro h
    rcases h with ⟨hb, hw⟩ | h0 | h0
    · simp [hb, hw]
    · have hwempty : ∀ p, movesFor s.board Cell.W p = [] :=
        countPieces_zero_no_moves s.board Cell.W h0
      split_ifs with h1 h2
      · rfl
      · exact decide_eq_true (by simp [h0])
      · exact absurd (Or.inr hwempty) h2
    · have hbempty : ∀ p, movesFor s.board Cell.B p = [] :=
        countPieces_zero_no_moves s.board Cell.B h0
      split_ifs with h1 h2
      · rfl
      · exact decide_eq_true (by simp [h0])
      · exact absurd (Or.inl hbempty) h2

/-- Witness for C3 at the initial position: the predicate and the
characterisation both come out false. -/
theorem C3_terminal_iff_witness :
    check_if_terminal (mkState table0 startBoard) = false := by
  have h := C3_terminal_iff (mkState table0 startBoard) (mkState_consistent _ _)
  have hr : ¬ (((∀ p, movesFor (mkState table0 startBoard).board Cell.B p = []) ∧
      (∀ p, movesFor (mkState table0 startBoard).board Cell.W p = [])) ∨
      countPieces (mkState table0 startBoard).board Cell.W = 0 ∨
      countPieces (mkState table0 startBoard).board Cell.B = 0) := by decide
  cases hb : check_if_terminal (mkState table0 startBoard) with
  | false => rfl
  | true => exact absurd (h.mp hb) hr

/-! ## C2: the turn iterator -/

/-- A position where White is stuck but Black can move, and Black's reply
opens a move for White: row 0 is `W B W`, row 7 is `B W`. -/
def boardQ : Board := boardOfRows
  [[Cell.W, Cell.B, Cell.W], [], [], [], [], [], [],
   [Cell.B, Cell.W]]

/-- C2 counterexample run.  From `boardQ` with the iterator's internal colour
at White: White has no legal move and Black does, so the iterator
force-passes and yields Black; the caller plays Black's legal move `(3, 0)`;
on the next round the iterator yields Black *again* (the `elif` branch left
the internal colour at Black), although White now has a legal move — the code
yields the same colour on consecutive plies with the opponent able to move. -/
theorem C2_same_colour_twice_with_opponent_moves :
    movesFor boardQ Cell.B ((3 : Fin 8), (0 : Fin 8)) ≠ [] ∧
    endGameStep (mkState table0 boardQ) Cell.W = some (Cell.B, Cell.B) ∧
    endGameStep (hplace table0 (mkState table0 boardQ)
      ((3 : Fin 8), (0 : Fin 8)) Cell.B) Cell.B = some (Cell.B, Cell.W) ∧
    numKeys (hplace table0 (mkState table0 boardQ)
      ((3 : Fin 8), (0 : Fin 8)) Cell.B).pmW ≠ 0 := by
  refine ⟨by decide, by decide, by decide, by decide⟩

/-- The parts of C2 that do hold: a yielded colour always has a key in
`possible_moves` at yield time, and the iterator stops exactly when both
colours have none. -/
theorem C2_yield_has_moves_and_stop_iff (s : HLV) (c : Cell) :
    (∀ y c2, endGameStep s c = some (y, c2) → numKeys (s.pm y) ≠ 0) ∧
    (endGameStep s c = none ↔ numKeys (s.pm c) = 0 ∧ numKeys (s.pm (flipRule c)) = 0) := by
  constructor
  · intro y c2 h
    unfold endGameStep at h
    split_ifs at h with h1 h2
    · simp only [Option.some.injEq, Prod.mk.injEq] at h
      obtain ⟨rfl, -⟩ := h
      exact h1
    · simp only [Option.some.injEq, Prod.mk.injEq] at h
      obtain ⟨rfl, -⟩ := h
      exact h2
  · unfold endGameStep
    split_ifs with h1 h2
    · simp [h1]
    · simp [h2]
    · simpa using ⟨not_not.mp h1, not_not.mp h2⟩

/-! ## C4 and C5: terminal utility and the heuristic -/

/-- C4 (amended), value part: `terminal_utility` is 0 on equal counts and
otherwise `±(85 + margin)`, positive for White, negative for Black. -/
theorem C4_terminal_utility_value (s : HLV) :
    (countPieces s.board Cell.W = countPieces s.board Cell.B →
      terminal_utility s = 0) ∧
    (countPieces s.board Cell.B < countPieces s.board Cell.W →
      terminal_utility s =
        85 + ((countPieces s.board Cell.W : ℤ) - (countPieces s.board Cell.B : ℤ))) ∧
    (countPieces s.board Cell.W < countPieces s.board Cell.B →
      terminal_utility s =
        -(85 + ((countPieces s.board Cell.B : ℤ) - (countPieces s.board Cell.W : ℤ)))) := by
  unfold terminal_utility sortedCounts
  set cw := countPieces s.board Cell.W with hcw
  set cb := countPieces s.board Cell.B with hcb
  by_cases hgt : (cb : ℤ) > (cw : ℤ)
  · rw [if_pos hgt]
    dsimp only
    refine ⟨fun h => absurd hgt (by omega), fun h => absurd hgt (by omega), fun h => ?_⟩
    rw [if_neg (by omega : ¬ (cb : ℤ) = (cw : ℤ)), if_neg (by decide : ¬ Cell.B = Cell.W)]
    omega
  · rw [if_neg hgt]
    dsimp only
    refine ⟨fun h => ?_, fun h => ?_, fun h => absurd hgt (by omega)⟩
    · rw [if_pos (by omega : ((cw : ℤ) = (cb : ℤ)))]
    · rw [if_neg (by omega : ¬ (cw : ℤ) = (cb : ℤ)), if_pos rfl]
      omega

/-- Witness for the C4 value part: a single Black disc is a terminal board
(`check_if_terminal` holds) with counts 0–1, so the utility is `-(85 + 1)`. -/
theorem C4_terminal_utility_value_witness :
    terminal_utility (mkState table0 (boardOfRows [[Cell.B]])) = -(85 + 1) ∧
    check_if_terminal (mkState table0 (boardOfRows [[Cell.B]])) = true := by
  constructor
  · have h := (C4_terminal_utility_value
      (mkState table0 (boardOfRows [[Cell.B]]))).2.2 (by decide)
    rw [h]; decide
  · decide

/-- The board refuting the "85 dominates the heuristic" half of C4: White
holds corner `(0, 0)` (stable, counted twice by the code) and row 3 is
`W B B B` — White's single move flips three Black discs, so
`white_stability = 2`, `black_stability = -3`, and the stability ratio is
`(2 + 3) / (2 - 3) = -5`, far outside `[-1, 1]`. -/
def boardS : Board := boardOfRows
  [[Cell.W], [], [],
   [Cell.W, Cell.B, Cell.B, Cell.B]]

/-- C4 counterexample: a non-terminal position whose heuristic value `-95`
exceeds in magnitude the terminal value `-86` of a decided game, so terminal
values do not dominate heuristic estimates. -/
theorem C4_heuristic_exceeds_terminal :
    check_if_terminal (mkState table0 boardS) = false ∧
    heuristic_utility (mkState table0 boardS) = some (-95) ∧
    check_if_terminal (mkState table0 (boardOfRows [[Cell.B]])) = true ∧
    terminal_utility (mkState table0 (boardOfRows [[Cell.B]])) = -86 ∧
    ¬ (Frac.fabs (-95) ≤ 85) ∧
    Frac.fabs ((-86 : ℤ) : Frac) < Frac.fabs (-95) := by
  refine ⟨by decide, by decide, by decide, by decide, by decide, by decide⟩

/-- C5 (amended): when the combined move count is non-zero the heuristic is
defined and its mobility term is the claimed ratio; when both colours have
zero legal moves the mobility division raises `ZeroDivisionError`
(`heuristic_utility` returns no value) instead of contributing 0. -/
theorem C5_mobility (s : HLV)
    (hp : (countPieces s.board Cell.W : Frac) + (countPieces s.board Cell.B : Frac) ≠ 0) :
    ((numKeys s.pmW : Frac) + (numKeys s.pmB : Frac) ≠ 0 →
      heuristic_utility s = some (30 * corner_capture_term s + mobility_term s * 5 +
        stability_term s * 25 + piece_count_term s * 25) ∧
      mobility_term s = ((numKeys s.pmW : Frac) - (numKeys s.pmB : Frac)) /
        ((numKeys s.pmW : Frac) + (numKeys s.pmB : Frac))) ∧
    ((numKeys s.pmW : Frac) + (numKeys s.pmB : Frac) = 0 →
      heuristic_utility s = none) := by
  constructor
  · intro hm
    refine ⟨?_, rfl⟩
    unfold heuristic_utility
    rw [if_neg hp, if_neg hm]
  · intro hm
    unfold heuristic_utility
    rw [if_neg hp, if_pos hm]

/-- Witness for C5 at the initial position (eight legal moves in total). -/
theorem C5_mobility_witness :
    heuristic_utility (mkState table0 startBoard) =
      some (30 * corner_capture_term (mkState table0 startBoard) +
        mobility_term (mkState table0 startBoard) * 5 +
        stability_term (mkState table0 startBoard) * 25 +
        piece_count_term (mkState table0 startBoard) * 25) := by
  exact ((C5_mobility (mkState table0 startBoard) (by decide)).1 (by decide)).1

/-- C5 counterexample to the claim as stated: a board where both colours
have zero legal moves (a lone Black disc); `heuristic_utility` raises
(returns no value) rather than being defined with a zero mobility term. -/
theorem C5_zero_mobility_raises :
    numKeys (mkState table0 (boardOfRows [[Cell.B]])).pmW = 0 ∧
    numKeys (mkState table0 (boardOfRows [[Cell.B]])).pmB = 0 ∧
    heuristic_utility (mkState table0 (boardOfRows [[Cell.B]])) = none := by
  refine ⟨by decide, by decide, by decide⟩

/-! ## C6: the stability signal -/

/-- Walk outward from a corner while the run stays colour `c`, as the claim
describes the stability count ("discs reachable by walking outward from each
of the 4 corners along the two board edges meeting at that corner while the
run stays a single colour").  Coordinates in `(y, x)` with step `(dy, dx)`;
fuel bounds the walk by the board size. -/
def specRun (b : Board) (c : Cell) : Nat → Int → Int → Int → Int → List (Int × Int)
  | 0, _, _, _, _ => []
  | fuel + 1, y, x, dy, dx =>
    if cellAtI b x y = some c then (y, x) :: specRun b c fuel (y + dy) (x + dx) dy dx
    else []

/-- The 4 corners with the two edge directions meeting at each, in `(y, x,
(dy, dx))` form (what `SAFE_LINES` evidently intends, without its duplicated
fifth/sixth entry). -/
def SPEC_CORNER_LINES : List (Int × Int × (Int × Int)) :=
  [(0, 0, (0, 1)), (0, 0, (1, 0)),
   (0, 7, (0, -1)), (0, 7, (1, 0)),
   (7, 0, (0, 1)), (7, 0, (-1, 0)),
   (7, 7, (0, -1)), (7, 7, (-1, 0))]

/-- The claim's stability count for one colour: the number of distinct discs
lying on a corner-anchored single-colour edge run. -/
def spec_stable_count (b : Board) (c : Cell) : Nat :=
  (SPEC_CORNER_LINES.flatMap
    (fun e => specRun b c 8 e.1 e.2.1 e.2.2.1 e.2.2.2)).toFinset.card

/-- The claim's white-stability signal: distinct stable discs minus the
distinct white discs on a currently-playable Black flip line. -/
def spec_white_stability (s : HLV) : ℤ :=
  (spec_stable_count s.board Cell.W : ℤ) - ((unstable s Cell.B).card : ℤ)

/-- C6 counterexample: with White discs on `(y, x) = (0, 0)...(0, 3)` the
claim's count is 4 (the corner plus the three discs reachable along the top
edge), but the code computes 2: each occupied corner is appended once per
`SAFE_LINES` entry naming it, and `dumb_line_iterator` never yields (its
guard `0 >= x > BOARD_SIZE` is unsatisfiable, `dumbLineGuard_false`), so the
edge walk is dead code. -/
theorem C6_stability_counterexample :
    white_stability (mkState table0 (boardOfRows [[Cell.W, Cell.W, Cell.W, Cell.W]])) = 2 ∧
    spec_white_stability (mkState table0 (boardOfRows [[Cell.W, Cell.W, Cell.W, Cell.W]])) = 4 ∧
    white_stability (mkState table0 (boardOfRows [[Cell.W, Cell.W, Cell.W, Cell.W]])) ≠
      spec_white_stability (mkState table0 (boardOfRows [[Cell.W, Cell.W, Cell.W, Cell.W]])) := by
  refine ⟨by decide, by decide, by decide⟩

/-! ## C9: input validation -/

/-- A candidate coordinate component as the interactive callers produce them:
an integer, or a raw string (the `int(...)` conversion with its
`except ValueError` is what `can_be_placed` guards). -/
inductive PyVal where
  | int : Int → PyVal
  | str : String → PyVal
deriving DecidableEq

/-- Python's `int(...)` on such a value: integers pass through, strings are
parsed as (optionally signed) decimal numerals, anything else raises
`ValueError` (`none`). -/
def pyInt : PyVal → Option Int
  | PyVal.int n => some n
  | PyVal.str s => s.toInt?

/-- Model: `Othello.can_be_placed(pos, current_colour)`: convert both components
(returning the raw input with `False` on `ValueError`), then test
`0 <= pos[0] < BOARD_SIZE and 0 <= pos[1] < BOARD_SIZE` and membership in
`possible_moves[current_colour].keys()`. -/
def can_be_placed (s : HLV) (pos : PyVal × PyVal) (c : Cell) :
    (PyVal × PyVal) × Bool :=
  match pyInt pos.1, pyInt pos.2 with
  | some a, some b =>
    if h : 0 ≤ a ∧ a < 8 ∧ 0 ≤ b ∧ b < 8 then
      if s.pm c (⟨a.toNat, int_toNat_lt8 h.1 h.2.1⟩,
          ⟨b.toNat, int_toNat_lt8 h.2.2.1 h.2.2.2⟩) ≠ [] then
        ((PyVal.int a, PyVal.int b), true)
      else ((PyVal.int a, PyVal.int b), false)
    else ((PyVal.int a, PyVal.int b), false)
  | _, _ => (pos, false)

/-- Reduction of `can_be_placed` once both conversions succeed. -/
theorem can_be_placed_eq_of_some (s : HLV) (pos : PyVal × PyVal) (c : Cell)
    (a b : Int) (h1 : pyInt pos.1 = some a) (h2 : pyInt pos.2 = some b) :
    can_be_placed s pos c =
      if h : 0 ≤ a ∧ a < 8 ∧ 0 ≤ b ∧ b < 8 then
        if s.pm c (⟨a.toNat, int_toNat_lt8 h.1 h.2.1⟩,
            ⟨b.toNat, int_toNat_lt8 h.2.2.1 h.2.2.2⟩) ≠ [] then
          ((PyVal.int a, PyVal.int b), true)
        else ((PyVal.int a, PyVal.int b), false)
      else ((PyVal.int a, PyVal.int b), false) := by
  unfold can_be_placed
  rw [h1, h2]

/-- Reduction of `can_be_placed` when a conversion raises `ValueError`. -/
theorem can_be_placed_eq_of_none (s : HLV) (pos : PyVal × PyVal) (c : Cell)
    (h : pyInt pos.1 = none ∨ pyInt pos.2 = none) :
    can_be_placed s pos c = (pos, false) := by
  unfold can_be_placed
  rcases h with h | h
  · rw [h]
  · rcases h1 : pyInt pos.1 with _ | a
    · rfl
    · rw [h]

/-- C9: `can_be_placed` always returns a (position, flag) pair — the model is
total, the `ValueError` of a malformed component being caught and mapped to
`False` — the flag is true exactly when both components convert and the
converted pair is an in-range coordinate with a key in the colour's current
legal-move set, and on successful conversion the returned position is the
converted (normalized) pair. -/
theorem C9_can_be_placed (s : HLV) (hc : s.consistent) (pos : PyVal × PyVal)
    (c : Cell) :
    ((can_be_placed s pos c).2 = true ↔
      ∃ p : Pos, pyInt pos.1 = some ((p.1.val : Int)) ∧
        pyInt pos.2 = some ((p.2.val : Int)) ∧
        movesFor s.board c p ≠ []) ∧
    (∀ a b : Int, pyInt pos.1 = some a → pyInt pos.2 = some b →
      (can_be_placed s pos c).1 = (PyVal.int a, PyVal.int b)) := by
  obtain ⟨hW, hB⟩ := hc
  have hpm : ∀ p, s.pm c p = movesFor s.board c p := by
    intro p; cases c
    · rw [show s.pm Cell.W = s.pmW from rfl, hW]
    · rw [show s.pm Cell.B = s.pmB from rfl, hB]
    · rfl
  constructor
  · constructor
    · intro h
      rcases h1 : pyInt pos.1 with _ | a
      · rw [can_be_placed_eq_of_none s pos c (Or.inl h1)] at h
        exact absurd h (by simp)
      · rcases h2 : pyInt pos.2 with _ | b
        · rw [can_be_placed_eq_of_none s pos c (Or.inr h2)] at h
          exact absurd h (by simp)
        · rw [can_be_placed_eq_of_some s pos c a b h1 h2] at h
          split_ifs at h with hb hk
          · refine ⟨(⟨a.toNat, int_toNat_lt8 hb.1 hb.2.1⟩,
              ⟨b.toNat, int_toNat_lt8 hb.2.2.1 hb.2.2.2⟩), ?_, ?_, ?_⟩
            · simp
              try omega
            · simp
              try omega
            · rw [← hpm]; exact hk
    · rintro ⟨p, h1, h2, h3⟩
      rw [can_be_placed_eq_of_some s pos c _ _ h1 h2]
      have hb : 0 ≤ (p.1.val : Int) ∧ (p.1.val : Int) < 8 ∧
          0 ≤ (p.2.val : Int) ∧ (p.2.val : Int) < 8 := by
        refine ⟨by omega, by exact_mod_cast p.1.isLt, by omega, by exact_mod_cast p.2.isLt⟩
      rw [dif_pos hb]
      have hp : ((⟨(p.1.val : Int).toNat, by omega⟩ : Fin 8),
          (⟨(p.2.val : Int).toNat, by omega⟩ : Fin 8)) = p := by
        apply Prod.ext <;> apply Fin.ext <;> simp
      rw [if_pos (by rw [hpm, hp]; exact h3)]
  · intro a b h1 h2
    rw [can_be_placed_eq_of_some s pos c a b h1 h2]
    split_ifs <;> rfl

/-- Witness for C9: the Black move `(3, 2)` at the initial position is
accepted and normalized. -/
theorem C9_can_be_placed_witness :
    (can_be_placed (mkState table0 startBoard) (PyVal.int 3, PyVal.int 2) Cell.B).2 = true := by
  exact (C9_can_be_placed (mkState table0 startBoard) (mkState_consistent _ _)
    (PyVal.int 3, PyVal.int 2) Cell.B).1.mpr
    ⟨((3 : Fin 8), (2 : Fin 8)), rfl, rfl, by decide⟩

/-! ## C7: use of transposition-table entries -/

/-- C7 (amended): an entry whose stored depth is below the required lookahead
is ignored entirely — the window is left untouched and no move-ordering hint
is produced (`check_move_first = None`), so the mover's legal moves are
examined in dictionary order. -/
theorem C7_shallow_entry_ignored (tt : TT) (b : Board) (alpha beta : Val)
    (L : Nat) (e : TTEntry) (hget : ttGet tt b = some e) (hd : e.depth < L) :
    ttProbe tt b alpha beta L = ProbeResult.go alpha beta none := by
  unfold ttProbe
  rw [hget]
  exact dif_neg (by omega)

/-- Witness for C7 at a concrete table: a depth-1 entry probed at
lookahead 2. -/
theorem C7_shallow_entry_ignored_witness :
    ttProbe [(startBoard, ⟨Val.fin 0, 1, 1, ((5 : Fin 8), (3 : Fin 8))⟩)]
      startBoard Val.ninf Val.pinf 2 = ProbeResult.go Val.ninf Val.pinf none := by
  exact C7_shallow_entry_ignored _ _ _ _ _ _ rfl (by decide)

/-- C7 counterexample to the claim as stated: with a depth-1 entry whose
stored best move is `(5, 3)` and a lookahead-2 probe, the hint is `None`, so
`sorted(keys, key=...)` leaves White's moves in dictionary order and the
stored move is examined last, not first — although it is a legal move. -/
theorem C7_shallow_entry_not_hint :
    ttProbe [(startBoard, ⟨Val.fin 0, 1, 1, ((5 : Fin 8), (3 : Fin 8))⟩)]
      startBoard Val.ninf Val.pinf 2 = ProbeResult.go Val.ninf Val.pinf none ∧
    ((5 : Fin 8), (3 : Fin 8)) ∈ keysOf (mkState table0 startBoard).pmW ∧
    orderMoves (keysOf (mkState table0 startBoard).pmW) none =
      [((2 : Fin 8), (4 : Fin 8)), ((3 : Fin 8), (5 : Fin 8)),
       ((4 : Fin 8), (2 : Fin 8)), ((5 : Fin 8), (3 : Fin 8))] ∧
    orderMoves (keysOf (mkState table0 startBoard).pmW)
        (some ((5 : Fin 8), (3 : Fin 8))) =
      [((5 : Fin 8), (3 : Fin 8)), ((2 : Fin 8), (4 : Fin 8)),
       ((3 : Fin 8), (5 : Fin 8)), ((4 : Fin 8), (2 : Fin 8))] := by
  refine ⟨by decide, by decide, by decide, by decide⟩

/-! ## C1: the incremental Zobrist hash -/

theorem xor_cancel_left (x y : Nat) : (x ^^^ y) ^^^ x = y := by
  rw [Nat.xor_comm x y, Nat.xor_assoc, Nat.xor_self, Nat.xor_zero]

theorem foldl_xor_init (l : List Pos) (f : Pos → Nat) (a : Nat) :
    l.foldl (fun h p => h ^^^ f p) a = a ^^^ l.foldl (fun h p => h ^^^ f p) 0 := by
  induction l generalizing a with
  | nil => simp
  | cons q t ih =>
    simp only [List.foldl_cons]
    rw [ih (a ^^^ f q), ih (0 ^^^ f q), Nat.zero_xor, Nat.xor_assoc]

theorem foldl_xor_congr (l : List Pos) (f g : Pos → Nat)
    (h : ∀ p ∈ l, f p = g p) :
    l.foldl (fun h p => h ^^^ f p) 0 = l.foldl (fun h p => h ^^^ g p) 0 := by
  induction l with
  | nil => rfl
  | cons q t ih =>
    simp only [List.foldl_cons]
    rw [foldl_xor_init t f, foldl_xor_init t g, h q (by simp),
      ih (fun p hp => h p (by simp [hp]))]

/-- Re-XOR-ing one list element: if `g` agrees with `f` away from `p` then
folding `g` equals folding `f` with `f p` XOR-ed out and `g p` XOR-ed in. -/
theorem foldl_xor_update (l : List Pos) (f g : Pos → Nat) (p : Pos)
    (hp : p ∈ l) (hnd : l.Nodup) (hsame : ∀ q ∈ l, q ≠ p → g q = f q) :
    l.foldl (fun h q => h ^^^ g q) 0 =
      l.foldl (fun h q => h ^^^ f q) 0 ^^^ f p ^^^ g p := by
  induction l with
  | nil => exact absurd hp (by simp)
  | cons a t ih =>
    simp only [List.foldl_cons]
    rw [foldl_xor_init t g, foldl_xor_init t f, Nat.zero_xor, Nat.zero_xor]
    rcases List.mem_cons.mp hp with rfl | hpt
    · have hnott : p ∉ t := (List.nodup_cons.mp hnd).1
      have ht : t.foldl (fun h q => h ^^^ g q) 0 = t.foldl (fun h q => h ^^^ f q) 0 := by
        apply foldl_xor_congr
        intro q hq
        exact hsame q (by simp [hq]) (fun hqp => hnott (hqp ▸ hq))
      rw [ht, xor_cancel_left (f p)]
      exact Nat.xor_comm _ _
    · have ha : a ≠ p := by
        rintro rfl
        exact (List.nodup_cons.mp hnd).1 hpt
      rw [ih hpt (List.nodup_cons.mp hnd).2
          (fun q hq hqp => hsame q (by simp [hq]) hqp),
        hsame a (by simp) ha, Nat.xor_assoc, Nat.xor_assoc]
      exact (Nat.xor_assoc _ _ _).symm

theorem getCell_setCell_same (b : Board) (p : Pos) (c : Cell) :
    getCell (setCell b p c) p = c := by
  simp [getCell, setCell]

theorem getCell_setCell_ne (b : Board) (p : Pos) (c : Cell) (q : Pos)
    (h : q ≠ p) : getCell (setCell b p c) q = getCell b q := by
  unfold getCell setCell
  rw [if_neg]
  rintro ⟨h2, h1⟩
  exact h (Prod.ext h1 h2)

theorem mem_allPosYX (p : Pos) : p ∈ allPosYX := by
  unfold allPosYX
  exact List.mem_flatMap.mpr
    ⟨p.2, List.mem_finRange _, List.mem_map.mpr ⟨p.1, List.mem_finRange _, rfl⟩⟩

theorem nodup_allPosYX : allPosYX.Nodup := by decide

/-- Mutating one cell changes the from-scratch hash by XOR-ing out the old
cell-colour value and XOR-ing in the new one. -/
theorem scratchHash_setCell (table : Table) (b : Board) (p : Pos) (c : Cell) :
    scratchHash table (setCell b p c) =
      scratchHash table b ^^^ table (idx64 p) (XOR_INDICES (getCell b p)) ^^^
        table (idx64 p) (XOR_INDICES c) := by
  unfold scratchHash
  rw [foldl_xor_update allPosYX
    (fun q => table (idx64 q) (XOR_INDICES (getCell b q)))
    (fun q => table (idx64 q) (XOR_INDICES (getCell (setCell b p c) q)))
    p (mem_allPosYX p) nodup_allPosYX
    (fun q _ hq => by dsimp only; rw [getCell_setCell_ne b p c q hq])]
  rw [getCell_setCell_same]

/-- The incremental-hash invariant of a `(board, hash_num)` pair. -/
def bhInv (table : Table) (bh : Board × Nat) : Prop :=
  bh.2 = scratchHash table bh.1

/-- Model: `HashedLocalVersus.flip` preserves the hash invariant (unconditionally:
it XORs out exactly the value of the colour it reads). -/
theorem hflip_inv (table : Table) (bh : Board × Nat) (x y : Int)
    (h : bhInv table bh) : bhInv table (hflip table bh x y) := by
  unfold hflip
  split
  · unfold bhInv at h ⊢
    dsimp only
    rw [scratchHash_setCell, h]
  · exact h

theorem foldl_hflip_inv (table : Table) (l : List (Int × Int)) (bh : Board × Nat)
    (h : bhInv table bh) :
    bhInv table (l.foldl (fun acc q => hflip table acc q.1 q.2) bh) := by
  induction l generalizing bh with
  | nil => exact h
  | cons q t ih => exact ih _ (hflip_inv table bh q.1 q.2 h)

theorem flipAlong_inv (table : Table) (bh : Board × Nat) (p : Pos) (c : Cell)
    (d : Int × Int) (h : bhInv table bh) : bhInv table (flipAlong table bh p c d) := by
  unfold flipAlong
  split
  · exact foldl_hflip_inv table _ bh h
  · exact h

theorem foldl_flipAlong_inv (table : Table) (dirs : List (Int × Int))
    (bh : Board × Nat) (p : Pos) (c : Cell) (h : bhInv table bh) :
    bhInv table (dirs.foldl (fun acc d => flipAlong table acc p c d) bh) := by
  induction dirs generalizing bh with
  | nil => exact h
  | cons d t ih => exact ih _ (flipAlong_inv table bh p c d h)

/-- A legal move starts from an empty cell. -/
theorem movesFor_ne_nil_empty_cell (b : Board) (c : Cell) (p : Pos)
    (h : movesFor b c p ≠ []) : getCell b p = Cell.E := by
  cases c with
  | E => simp [movesFor] at h
  | W =>
    by_cases hE : getCell b p = Cell.E
    · exact hE
    · exact absurd (by simp [movesFor, hE]) h
  | B =>
    by_cases hE : getCell b p = Cell.E
    · exact hE
    · exact absurd (by simp [movesFor, hE]) h

/-- Under the game-loop invariant the stored dictionaries agree with the
recomputed legal-move sets. -/
theorem consistent_pm (s : HLV) (hc : s.consistent) (c : Cell) (p : Pos) :
    s.pm c p = movesFor s.board c p := by
  obtain ⟨hW, hB⟩ := hc
  cases c
  · exact congrFun hW p
  · exact congrFun hB p
  · rfl

/-- Model: `HashedLocalVersus.place` on an empty cell preserves the hash
invariant. -/
theorem hplace_inv (table : Table) (s : HLV) (p : Pos) (c : Cell)
    (hinv : s.hash_num = scratchHash table s.board)
    (hE : getCell s.board p = Cell.E) :
    (hplace table s p c).hash_num = scratchHash table (hplace table s p c).board := by
  unfold hplace
  dsimp only
  have h1 : bhInv table
      (setCell s.board p c,
        s.hash_num ^^^ table (idx64 p) (XOR_INDICES Cell.E) ^^^
          table (idx64 p) (XOR_INDICES c)) := by
    unfold bhInv
    dsimp only
    rw [scratchHash_setCell, hE, hinv]
  exact foldl_flipAlong_inv table (s.pm c p) _ p c h1

theorem hplace_consistent (table : Table) (s : HLV) (p : Pos) (c : Cell) :
    (hplace table s p c).consistent := ⟨rfl, rfl⟩

/-- A sequence of `place` calls applied in order. -/
def applyMoves (table : Table) (s : HLV) : List (Pos × Cell) → HLV
  | [] => s
  | m :: rest => applyMoves table (hplace table s m.1 m.2) rest

/-- Every placement of the sequence is on a key of the mover's
`possible_moves` dictionary at its time (what the game loop and the search
guarantee before calling `place`). -/
def LegalSeq (table : Table) (s : HLV) : List (Pos × Cell) → Prop
  | [] => True
  | m :: rest => s.pm m.2 m.1 ≠ [] ∧ LegalSeq table (hplace table s m.1 m.2) rest

theorem applyMoves_inv (table : Table) (moves : List (Pos × Cell)) :
    ∀ s : HLV, s.consistent → s.hash_num = scratchHash table s.board →
      LegalSeq table s moves →
      (applyMoves table s moves).hash_num =
        scratchHash table (applyMoves table s moves).board := by
  induction moves with
  | nil => exact fun s _ hinv _ => hinv
  | cons m rest ih =>
    intro s hcons hinv hleg
    obtain ⟨hm, hrest⟩ := hleg
    have hmv : movesFor s.board m.2 m.1 ≠ [] := by
      rw [← consistent_pm s hcons m.2 m.1]; exact hm
    exact ih (hplace table s m.1 m.2) (hplace_consistent table s m.1 m.2)
      (hplace_inv table s m.1 m.2 hinv (movesFor_ne_nil_empty_cell _ _ _ hmv)) hrest

/-- C1: starting from a root seeded by `get_hash_version` (hash from scratch,
`possible_moves` as `board_change` computes them), any sequence of legal
`place` calls keeps `hash_num` equal to the from-scratch XOR over all 64
cells of the current board. -/
theorem C1_incremental_hash (table : Table) (b : Board)
    (pmW pmB : Pos → List (Int × Int))
    (hW : pmW = fun p => movesFor b Cell.W p)
    (hB : pmB = fun p => movesFor b Cell.B p)
    (moves : List (Pos × Cell))
    (hleg : LegalSeq table (get_hash_version table b pmW pmB) moves) :
    (applyMoves table (get_hash_version table b pmW pmB) moves).hash_num =
      scratchHash table
        (applyMoves table (get_hash_version table b pmW pmB) moves).board := by
  apply applyMoves_inv table moves
  · exact ⟨hW, hB⟩
  · simp only [get_hash_version]
  · exact hleg

set_option maxRecDepth 100000 in
/-- Witness for C1: from the initial position, Black plays `(2, 3)` and then
White plays `(2, 4)`; the incrementally maintained hash matches the
from-scratch hash of the final board. -/
theorem C1_incremental_hash_witness :
    (applyMoves table0 (get_hash_version table0 startBoard
        (fun p => movesFor startBoard Cell.W p) (fun p => movesFor startBoard Cell.B p))
      [(((2 : Fin 8), (3 : Fin 8)), Cell.B), (((2 : Fin 8), (4 : Fin 8)), Cell.W)]).hash_num =
      scratchHash table0
        (applyMoves table0 (get_hash_version table0 startBoard
            (fun p => movesFor startBoard Cell.W p) (fun p => movesFor startBoard Cell.B p))
          [(((2 : Fin 8), (3 : Fin 8)), Cell.B), (((2 : Fin 8), (4 : Fin 8)), Cell.W)]).board := by
  exact C1_incremental_hash table0 startBoard _ _ rfl rfl _
    ⟨by decide, by decide, trivial⟩

/-! ## C10: the search leaves its argument state unchanged

The claim is about Python object mutation, so value-passing semantics would
make it vacuous.  This section re-expresses `AI.minimax` over an explicit
object store: states live in a list of cells, a reference is an index,
`deepcopy` allocates a fresh cell, and `place` mutates the cell it is called
on.  The frame theorem then states that a `minimax` call never writes to any
cell that existed when it was entered — in particular its argument state
(board grid, `hash_num`, `possible_moves`) is identical before and after. -/

/-- The object store: each cell holds the state of one `HashedLocalVersus`
object. -/
abbrev Store := List HLV

def defaultHLV : HLV :=
  { board := fun _ _ => Cell.E, hash_num := 0, pmW := fun _ => [], pmB := fun _ => [] }

/-- Dereference an object (indices used by the search are always valid; the
default is never reached). -/
def hget (h : Store) (i : Nat) : HLV := h.getD i defaultHLV

/-- Model: `HashedLocalVersus.__deepcopy__`: a fresh object with a copied
`HashedBoard` (board and `hash_num`); `possible_moves` and the table are
shared, and the copy's `place` only rebinds (never mutates) the shared
dictionaries, which value copying models faithfully. -/
def deepcopyHLV (s : HLV) : HLV :=
  { board := s.board, hash_num := s.hash_num, pmW := s.pmW, pmB := s.pmB }

/-- Model: `new_board = deepcopy(board); new_board.place(pos, colour)` over the
store: allocate a fresh cell holding the copy, then mutate that cell by
placing. -/
def allocPlace (table : Table) (h : Store) (i : Nat) (m : Pos) (c : Cell) : Store :=
  (h ++ [deepcopyHLV (hget h i)]).set h.length
    (hplace table (hget (h ++ [deepcopyHLV (hget h i)]) h.length) m c)

/-- The maximising move loop over the store: `new_board = deepcopy(board)`
allocates a fresh cell at the end of the store, `new_board.place(...)`
mutates only that fresh cell (`allocPlace`), and the recursion receives the
fresh reference `h.length`.  The one-ply-shallower search is passed in as
`recur`, keeping the recursion structural in `lookahead`. -/
def loopMaxH (table : Table)
    (recur : Store → Nat → Val → Val → Bool → TT → Option (Val × Option Pos × TT × Store))
    (i : Nat) (beta : Val) :
    Store → List Pos → Val → Option Pos → Val → TT →
      Option (Val × Option Pos × TT × Store)
  | h, [], score, action, _, tt => some (score, action, tt, h)
  | h, m :: rest, score, action, a, tt =>
    match recur (allocPlace table h i m Cell.W) h.length a beta
        (numKeys (hget (allocPlace table h i m Cell.W) h.length).pmB == 0) tt with
    | none => none
    | some (evaluation, _, tt1, h3) =>
      let action1 := if vlt score evaluation then some m else action
      let score1 := vmax score evaluation
      let a1 := vmax a score1
      if vle beta a1 then some (score1, action1, tt1, h3)
      else loopMaxH table recur i beta h3 rest score1 action1 a1 tt1

/-- The minimising move loop over the store. -/
def loopMinH (table : Table)
    (recur : Store → Nat → Val → Val → Bool → TT → Option (Val × Option Pos × TT × Store))
    (i : Nat) (alpha : Val) :
    Store → List Pos → Val → Option Pos → Val → TT →
      Option (Val × Option Pos × TT × Store)
  | h, [], score, action, _, tt => some (score, action, tt, h)
  | h, m :: rest, score, action, b, tt =>
    match recur (allocPlace table h i m Cell.B) h.length alpha b
        (numKeys (hget (allocPlace table h i m Cell.B) h.length).pmW != 0) tt with
    | none => none
    | some (evaluation, _, tt1, h3) =>
      let action1 := if vlt evaluation score then some m else action
      let score1 := vmin score evaluation
      let b1 := vmin b score1
      if vle b1 alpha then some (score1, action1, tt1, h3)
      else loopMinH table recur i alpha h3 rest score1 action1 b1 tt1

/-- Model: `AI.minimax` over the object store: identical to `minimax` except that
the board state is passed by reference `i`.  The transposition-table store
at the end reads the frame state at `i` at store time, as the source
does. -/
def minimaxH (table : Table) : Nat → Store → Nat → Val → Val → Bool → TT →
    Option (Val × Option Pos × TT × Store)
  | lookahead, h, i, alpha, beta, maximising, tt =>
    match ttProbe tt (hget h i).board alpha beta lookahead with
    | ProbeResult.ret v m => some (v, some m, tt, h)
    | ProbeResult.go alpha1 beta1 cmf =>
      if check_if_terminal (hget h i) then
        some (Val.fin ((terminal_utility (hget h i) : ℤ) : Frac), none, tt, h)
      else
        match lookahead with
        | 0 => (heuristic_utility (hget h i)).map (fun q => (Val.fin q, none, tt, h))
        | Nat.succ L =>
          if maximising then
            match loopMaxH table (fun h2 j a b mx tt2 => minimaxH table L h2 j a b mx tt2)
                i beta1 h (orderMoves (keysOf (hget h i).pmW) cmf)
                Val.ninf none alpha1 tt with
            | none => none
            | some (score, action, tt1, h1) =>
              (storeResult (hget h1 i) alpha1 beta1 (L + 1) (score, action, tt1)).map
                (fun r => (r.1, r.2.1, r.2.2, h1))
          else
            match loopMinH table (fun h2 j a b mx tt2 => minimaxH table L h2 j a b mx tt2)
                i alpha1 h (orderMoves (keysOf (hget h i).pmB) cmf)
                Val.pinf none beta1 tt with
            | none => none
            | some (score, action, tt1, h1) =>
              (storeResult (hget h1 i) alpha1 beta1 (L + 1) (score, action, tt1)).map
                (fun r => (r.1, r.2.1, r.2.2, h1))

/-- Store extension: all previously existing cells are unchanged. -/
def StoreExt (h h2 : Store) : Prop :=
  h.length ≤ h2.length ∧ ∀ k, k < h.length → h2.get? k = h.get? k

theorem StoreExt.refl (h : Store) : StoreExt h h := ⟨le_rfl, fun _ _ => rfl⟩

theorem StoreExt.trans {h1 h2 h3 : Store} (a : StoreExt h1 h2)
    (b : StoreExt h2 h3) : StoreExt h1 h3 :=
  ⟨a.1.trans b.1, fun k hk => (b.2 k (lt_of_lt_of_le hk a.1)).trans (a.2 k hk)⟩

/-- Allocating a fresh cell and mutating it extends the store. -/
theorem storeExt_alloc_set (h : Store) (x y : HLV) :
    StoreExt h ((h ++ [x]).set h.length y) := by
  constructor
  · rw [List.length_set, List.length_append]
    simp
  · intro k hk
    rw [List.get?_set_ne _ _ (by omega), List.get?_append hk]

theorem storeExt_allocPlace (table : Table) (h : Store) (i : Nat) (m : Pos)
    (c : Cell) : StoreExt h (allocPlace table h i m c) :=
  storeExt_alloc_set h _ _

theorem frame_loopMaxH (table : Table)
    (recur : Store → Nat → Val → Val → Bool → TT → Option (Val × Option Pos × TT × Store))
    (Hrec : ∀ h j alpha beta mx tt r,
      recur h j alpha beta mx tt = some r → StoreExt h r.2.2.2)
    (i : Nat) (beta : Val) :
    ∀ (moves : List Pos) (h : Store) (score : Val) (action : Option Pos)
      (a : Val) (tt : TT) r,
      loopMaxH table recur i beta h moves score action a tt = some r →
        StoreExt h r.2.2.2 := by
  intro moves
  induction moves with
  | nil =>
    intro h score action a tt r hr
    unfold loopMaxH at hr
    injection hr with hr
    subst hr
    exact StoreExt.refl h
  | cons m rest ih =>
    intro h score action a tt r hr
    unfold loopMaxH at hr
    dsimp only at hr
    split at hr
    · exact absurd hr (by simp)
    · rename_i evaluation x tt1 h3 heq
      have hx : StoreExt h (allocPlace table h i m Cell.W) :=
        storeExt_allocPlace table h i m Cell.W
      have h23 : StoreExt (allocPlace table h i m Cell.W) h3 :=
        Hrec _ _ _ _ _ _ _ heq
      split at hr
      · injection hr with hr
        subst hr
        exact hx.trans h23
      · exact (hx.trans h23).trans (ih _ _ _ _ _ _ hr)

theorem frame_loopMinH (table : Table)
    (recur : Store → Nat → Val → Val → Bool → TT → Option (Val × Option Pos × TT × Store))
    (Hrec : ∀ h j alpha beta mx tt r,
      recur h j alpha beta mx tt = some r → StoreExt h r.2.2.2)
    (i : Nat) (alpha : Val) :
    ∀ (moves : List Pos) (h : Store) (score : Val) (action : Option Pos)
      (b : Val) (tt : TT) r,
      loopMinH table recur i alpha h moves score action b tt = some r →
        StoreExt h r.2.2.2 := by
  intro moves
  induction moves with
  | nil =>
    intro h score action b tt r hr
    unfold loopMinH at hr
    injection hr with hr
    subst hr
    exact StoreExt.refl h
  | cons m rest ih =>
    intro h score action b tt r hr
    unfold loopMinH at hr
    dsimp only at hr
    split at hr
    · exact absurd hr (by simp)
    · rename_i evaluation x tt1 h3 heq
      have hx : StoreExt h (allocPlace table h i m Cell.B) :=
        storeExt_allocPlace table h i m Cell.B
      have h23 : StoreExt (allocPlace table h i m Cell.B) h3 :=
        Hrec _ _ _ _ _ _ _ heq
      split at hr
      · injection hr with hr
        subst hr
        exact hx.trans h23
      · exact (hx.trans h23).trans (ih _ _ _ _ _ _ hr)

/-- The frame property of the store-level search: a `minimax` call only
writes to cells it allocated itself; every cell that existed at entry is
unchanged on exit. -/
theorem frame_minimaxH (table : Table) :
    ∀ (L : Nat) (h : Store) (i : Nat) (alpha beta : Val) (mx : Bool) (tt : TT) r,
      minimaxH table L h i alpha beta mx tt = some r → StoreExt h r.2.2.2 := by
  intro L
  induction L with
  | zero =>
    intro h i alpha beta mx tt r hr
    unfold minimaxH at hr
    dsimp only at hr
    split at hr
    · injection hr with hr
      subst hr
      exact StoreExt.refl h
    · split_ifs at hr with ht
      · injection hr with hr
        subst hr
        exact StoreExt.refl h
      · rcases hq : heuristic_utility (hget h i) with _ | q
        · rw [hq] at hr
          exact absurd hr (by simp)
        · rw [hq] at hr
          injection hr with hr
          subst hr
          exact StoreExt.refl h
  | succ L ih =>
    intro h i alpha beta mx tt r hr
    unfold minimaxH at hr
    dsimp only at hr
    split at hr
    · injection hr with hr
      subst hr
      exact StoreExt.refl h
    · rename_i alpha1 beta1 cmf heq
      split_ifs at hr with ht hm
      · injection hr with hr
        subst hr
        exact StoreExt.refl h
      · split at hr
        · exact absurd hr (by simp)
        · rename_i score action tt1 h1 heq2
          have hl := frame_loopMaxH table _
            (fun h2 j a b mx2 tt2 r2 hr2 => ih h2 j a b mx2 tt2 r2 hr2)
            i beta1 _ _ _ _ _ _ _ heq2
          rcases hs : storeResult (hget h1 i) alpha1 beta1 (L + 1)
              (score, action, tt1) with _ | r2
          · rw [hs] at hr
            exact absurd hr (by simp)
          · rw [hs] at hr
            injection hr with hr
            subst hr
            exact hl
      · split at hr
        · exact absurd hr (by simp)
        · rename_i score action tt1 h1 heq2
          have hl := frame_loopMinH table _
            (fun h2 j a b mx2 tt2 r2 hr2 => ih h2 j a b mx2 tt2 r2 hr2)
            i alpha1 _ _ _ _ _ _ _ heq2
          rcases hs : storeResult (hget h1 i) alpha1 beta1 (L + 1)
              (score, action, tt1) with _ | r2
          · rw [hs] at hr
            exact absurd hr (by simp)
          · rw [hs] at hr
            injection hr with hr
            subst hr
            exact hl

/-- C10: a `minimax` call leaves its argument state unchanged — the cell the
argument reference points to (board grid, Zobrist `hash_num` and
`possible_moves`) is identical before and after the search, because every
expansion deep-copies into a fresh cell and mutates only that copy. -/
theorem C10_minimax_frame (table : Table) (L : Nat) (h : Store) (i : Nat)
    (alpha beta : Val) (mx : Bool) (tt : TT) (v : Val) (m : Option Pos)
    (tt2 : TT) (h2 : Store) (hi : i < h.length)
    (hrun : minimaxH table L h i alpha beta mx tt = some (v, m, tt2, h2)) :
    h2.get? i = h.get? i :=
  (frame_minimaxH table L h i alpha beta mx tt (v, m, tt2, h2) hrun).2 i hi

/-- Witness for C10: a depth-1 search from `boardS` (White has one legal
move) terminates and leaves the root cell of the store intact. -/
theorem C10_minimax_frame_witness :
    (minimaxH table0 1 [mkState table0 boardS] 0 Val.ninf Val.pinf true []).map
      (fun r => r.2.2.2.get? 0) = some (some (mkState table0 boardS)) := by
  have hs : (minimaxH table0 1 [mkState table0 boardS] 0
      Val.ninf Val.pinf true []).isSome = true := by decide
  rcases hrun : minimaxH table0 1 [mkState table0 boardS] 0
      Val.ninf Val.pinf true [] with _ | ⟨v, m, tt2, h2⟩
  · rw [hrun] at hs
    exact absurd hs (by simp)
  · rw [Option.map_some']
    rw [C10_minimax_frame table0 1 [mkState table0 boardS] 0
      Val.ninf Val.pinf true [] v m tt2 h2 (by simp) hrun]
    rfl

end OthelloModel
